import Mathlib

/-!
Shallow embedding of `backend/conversation_queue.py` (VLSI Audio Overview):
the `QueueSegment` data model, the `ConversationQueue` class with its
operations (`load_overview_segments`, `insert_response`, `_resequence_segments`,
`advance`, `seek`, `pause`, `resume`, `get_remaining_segments`,
`get_queue_state`) and the module-level queue registry
(`get_conversation_queue`, `clear_queue`).

Python `int` is modelled as `Int`; a raw input record (`Dict[str, Any]`)
is modelled as a structure of `Option` fields, where `none` means the key
is absent: required keys are read with `d[k]` (a missing one raises a
`KeyError` naming the key, modelled as an error carrying the key's name)
and optional keys with `d.get(k, default)`.  Mutation is modelled by
explicit state passing: each mutating method returns the updated queue
together with its Python return value, and operations that can raise
return the post-raise state alongside the error.
-/

/-- The `QueueSegment` dataclass: one segment in the conversation queue. -/
structure QueueSegment where
  segment_id : String
  speaker : String
  text : String
  sequence : Int
  duration_ms : Int
  audio_url : Option String
  is_response : Bool
  inserted_at : Option String
deriving DecidableEq, Repr

/-- A raw segment record handed to `load_overview_segments` /
`insert_response` (a Python dict); `none` models an absent key. -/
structure RawSegment where
  segment_id : Option String
  speaker : Option String
  text : Option String
  sequence : Option Int
  duration_ms : Option Int
  audio_url : Option String
deriving DecidableEq, Repr

/-- Building one `QueueSegment` from a raw record, as both loaders do:
required keys `segment_id`, `speaker`, `text`, `sequence` are read with
`seg_data[...]` in that order (first missing key raises `KeyError`,
modelled as `Except.error` carrying the key name); `duration_ms` defaults
to `0` and `audio_url` to `None` via `.get`. -/
def buildSegment (is_resp : Bool) (ins : Option String) (r : RawSegment) :
    Except String QueueSegment :=
  match r.segment_id with
  | none => .error "segment_id"
  | some sid =>
    match r.speaker with
    | none => .error "speaker"
    | some sp =>
      match r.text with
      | none => .error "text"
      | some tx =>
        match r.sequence with
        | none => .error "sequence"
        | some sq =>
          .ok ⟨sid, sp, tx, sq, r.duration_ms.getD 0, r.audio_url, is_resp, ins⟩

/-- The `ConversationQueue` state: `overview_id`, `segments`,
`current_position` and `playback_paused`. -/
structure ConversationQueue where
  overview_id : String
  segments : List QueueSegment
  current_position : Int
  playback_paused : Bool
deriving DecidableEq, Repr

/-- `ConversationQueue.__init__`: empty list, position `0`, not paused. -/
def ConversationQueue.init (overview_id : String) : ConversationQueue :=
  ⟨overview_id, [], 0, false⟩

/-- The loop body of `load_overview_segments`: starting from the already
appended prefix `acc`, convert the remaining records one by one, appending
each converted segment; a `KeyError` stops the loop, leaving the appended
prefix in place and propagating the missing key's name. -/
def loadGo (acc : List QueueSegment) : List RawSegment →
    List QueueSegment × Option String
  | [] => (acc, none)
  | r :: rs =>
    match buildSegment false none r with
    | .error e => (acc, some e)
    | .ok s => loadGo (acc ++ [s]) rs

/-- `load_overview_segments`: sets `self.segments = []`, then appends one
converted segment per record (`is_response=False`).  Returns the queue
state after the call together with the missing-field error, if any: on a
`KeyError` the list has already been replaced by the converted prefix. -/
def load_overview_segments (q : ConversationQueue) (segments : List RawSegment) :
    ConversationQueue × Option String :=
  let p := loadGo [] segments
  ({ q with segments := p.1 }, p.2)

/-- Python `list.insert(i, x)`: a negative index counts from the end
(clamped to `0`), an index beyond the end appends. -/
def pyInsert (l : List α) (i : Int) (x : α) : List α :=
  let n : Int := l.length
  let j : Nat := (if i < 0 then max 0 (n + i) else min i n).toNat
  l.take j ++ x :: l.drop j

/-- The insertion loop of `insert_response`:
`for i, segment in enumerate(response_queue_segments): self.segments.insert(insert_pos + i, segment)`. -/
def insertAll (l : List α) (pos : Int) : List α → List α
  | [] => l
  | x :: xs => insertAll (pyInsert l pos x) (pos + 1) xs

/-- `_resequence_segments` body: `for i in range(start_pos, len(self.segments)):
self.segments[i].sequence = i`, written as a walk that carries the running
index `i` (its callers always pass a non-negative `start_pos`). -/
def resequenceGo (start : Int) (i : Int) : List QueueSegment → List QueueSegment
  | [] => []
  | s :: rest =>
    (if start ≤ i then { s with sequence := i } else s) :: resequenceGo start (i + 1) rest

/-- `_resequence_segments(start_pos)` applied to a segment list. -/
def resequence (segs : List QueueSegment) (start : Int) : List QueueSegment :=
  resequenceGo start 0 segs

/-- Converting the whole batch of response records before any mutation, as
the `response_queue_segments` loop of `insert_response` does
(`is_response=True`, `inserted_at` set to the current time `now`). -/
def buildResponses (now : String) : List RawSegment → Except String (List QueueSegment)
  | [] => .ok []
  | r :: rs =>
    match buildSegment true (some now) r with
    | .error e => .error e
    | .ok s =>
      match buildResponses now rs with
      | .error e => .error e
      | .ok ss => .ok (s :: ss)

/-- The `insert_pos` computation of `insert_response`:
`current_position + 1` when inserting after the current position,
`len(self.segments)` when appending. -/
def ipOf (q : ConversationQueue) (insert_after_current : Bool) : Int :=
  if insert_after_current then q.current_position + 1
  else (q.segments.length : Int)

/-- `insert_response(response_segments, insert_after_current)`: returns the
queue state after the call and the Python return value (`Except` models the
possible `KeyError` from a malformed record, raised before any mutation).
The timestamp `datetime.utcnow().isoformat()` is passed in as `now`. -/
def insert_response (q : ConversationQueue) (response_segments : List RawSegment)
    (insert_after_current : Bool) (now : String) :
    ConversationQueue × Except String Int :=
  if response_segments.isEmpty then (q, .ok q.current_position)
  else
    let insert_pos : Int := ipOf q insert_after_current
    match buildResponses now response_segments with
    | .error e => (q, .error e)
    | .ok newSegs =>
      let segs1 := insertAll q.segments insert_pos newSegs
      let segs2 := resequence segs1 (insert_pos + (newSegs.length : Int))
      ({ q with segments := segs2 }, .ok insert_pos)

/-- `advance()`: move forward only while strictly before the last index. -/
def ConversationQueue.advance (q : ConversationQueue) : ConversationQueue × Bool :=
  if q.current_position < (q.segments.length : Int) - 1 then
    ({ q with current_position := q.current_position + 1 }, true)
  else (q, false)

/-- `seek(position)`: reposition only when `0 <= position < len(segments)`. -/
def ConversationQueue.seek (q : ConversationQueue) (position : Int) :
    ConversationQueue × Bool :=
  if 0 ≤ position ∧ position < (q.segments.length : Int) then
    ({ q with current_position := position }, true)
  else (q, false)

/-- `pause()`. -/
def ConversationQueue.pause (q : ConversationQueue) : ConversationQueue :=
  { q with playback_paused := true }

/-- `resume()`. -/
def ConversationQueue.resume (q : ConversationQueue) : ConversationQueue :=
  { q with playback_paused := false }

/-- `get_remaining_segments()`: `len(self.segments) - self.current_position - 1`. -/
def get_remaining_segments (q : ConversationQueue) : Int :=
  (q.segments.length : Int) - q.current_position - 1

/-- The dictionary returned by `get_queue_state()`. -/
structure QueueStateView where
  overview_id : String
  total_segments : Nat
  current_position : Int
  remaining_segments : Int
  playback_paused : Bool
  segments : List QueueSegment
deriving DecidableEq, Repr

/-- `get_queue_state()`. -/
def get_queue_state (q : ConversationQueue) : QueueStateView :=
  ⟨q.overview_id, q.segments.length, q.current_position,
    get_remaining_segments q, q.playback_paused, q.segments⟩

/-- The module-level registry `_queues: Dict[str, ConversationQueue]`,
modelled as an insertion-ordered association list (Python dicts preserve
insertion order; `get_conversation_queue` never inserts a key twice, so
reachable registries have pairwise distinct keys). -/
abbrev Registry := List (String × ConversationQueue)

/-- Dict lookup `_queues[overview_id]` / membership `overview_id in _queues`. -/
def regFind (reg : Registry) (overview_id : String) : Option ConversationQueue :=
  (List.find? (fun p => p.1 = overview_id) reg).map Prod.snd

/-- `get_conversation_queue(overview_id)`: create-on-demand, then return
the stored queue.  Returns the updated registry and the queue. -/
def get_conversation_queue (reg : Registry) (overview_id : String) :
    Registry × ConversationQueue :=
  match regFind reg overview_id with
  | some q => (reg, q)
  | none =>
    let q := ConversationQueue.init overview_id
    (List.append reg [(overview_id, q)], q)

/-- `clear_queue(overview_id)`: `del _queues[overview_id]` guarded by a
membership test (removes the unique entry for the key when present). -/
def clear_queue (reg : Registry) (overview_id : String) : Registry :=
  match regFind reg overview_id with
  | some _ => List.eraseP (fun p => p.1 = overview_id) reg
  | none => reg

/-- A raw record is well formed when the four required keys are present;
`missingField` names the first absent required key, in the order the
constructor reads them. -/
def missingField (r : RawSegment) : Option String :=
  match r.segment_id with
  | none => some "segment_id"
  | some _ =>
    match r.speaker with
    | none => some "speaker"
    | some _ =>
      match r.text with
      | none => some "text"
      | some _ =>
        match r.sequence with
        | none => some "sequence"
        | some _ => none

/-- First missing required field across a batch of records, in order. -/
def firstMissing : List RawSegment → Option String
  | [] => none
  | r :: rs =>
    match missingField r with
    | some e => some e
    | none => firstMissing rs

/-- The segment that a well-formed record loads to (`is_response=False`). -/
def loadedSeg (r : RawSegment) : QueueSegment :=
  ⟨r.segment_id.getD "", r.speaker.getD "", r.text.getD "",
    r.sequence.getD 0, r.duration_ms.getD 0, r.audio_url, false, none⟩

/-- The segment that a well-formed record inserts to (`is_response=True`). -/
def respSeg (now : String) (r : RawSegment) : QueueSegment :=
  ⟨r.segment_id.getD "", r.speaker.getD "", r.text.getD "",
    r.sequence.getD 0, r.duration_ms.getD 0, r.audio_url, true, some now⟩

/-- A segment with its (queue-owned) `sequence` field erased, for stating
order preservation of shifted segments independently of resequencing. -/
def stripSeq (s : QueueSegment) : QueueSegment :=
  { s with sequence := 0 }

/-- The sequence invariant on a segment list: the entry at position `i`
carries `sequence = i`. -/
def SeqInvL (l : List QueueSegment) : Prop :=
  ∀ i : Nat, ∀ s : QueueSegment, l[i]? = some s → s.sequence = (i : Int)

/-- Queue states reachable from a fresh queue through
`load_overview_segments` / `insert_response` calls whose records are well
formed and carry `sequence` fields equal to the position each record will
occupy (its batch index for a load; the insertion index plus its batch
offset for an insert), with after-current inserts only into a queue long
enough to contain the insertion index. -/
inductive ReachC1 : ConversationQueue → Prop where
  | init (oid : String) : ReachC1 (ConversationQueue.init oid)
  | load (q : ConversationQueue) (recs : List RawSegment) (h : ReachC1 q)
      (hw : ∀ j : Nat, ∀ r : RawSegment, recs[j]? = some r →
        missingField r = none ∧ r.sequence = some (j : Int)) :
      ReachC1 (load_overview_segments q recs).1
  | insert (q : ConversationQueue) (recs : List RawSegment) (b : Bool) (now : String)
      (h : ReachC1 q)
      (hip : ipOf q b ≤ (q.segments.length : Int))
      (hw : ∀ j : Nat, ∀ r : RawSegment, recs[j]? = some r →
        missingField r = none ∧ r.sequence = some (ipOf q b + (j : Int))) :
      ReachC1 (insert_response q recs b now).1

/-- Queue states reachable from a fresh queue through any sequence of
operations, where each load supplies well-formed records and at least
`current_position` many of them. -/
inductive ReachC5 : ConversationQueue → Prop where
  | init (oid : String) : ReachC5 (ConversationQueue.init oid)
  | load (q : ConversationQueue) (recs : List RawSegment) (h : ReachC5 q)
      (hw : ∀ r ∈ recs, missingField r = none)
      (hlen : q.current_position ≤ (recs.length : Int)) :
      ReachC5 (load_overview_segments q recs).1
  | insert (q : ConversationQueue) (recs : List RawSegment) (b : Bool) (now : String)
      (h : ReachC5 q) : ReachC5 (insert_response q recs b now).1
  | advance (q : ConversationQueue) (h : ReachC5 q) : ReachC5 q.advance.1
  | seek (q : ConversationQueue) (p : Int) (h : ReachC5 q) : ReachC5 (q.seek p).1
  | pause (q : ConversationQueue) (h : ReachC5 q) : ReachC5 q.pause
  | resume (q : ConversationQueue) (h : ReachC5 q) : ReachC5 q.resume

/-- A concrete well-formed loaded segment, for concrete test states. -/
def wseg (sid : String) (sq : Int) : QueueSegment :=
  ⟨sid, "zoya", "text", sq, 0, none, false, none⟩

/-- A concrete well-formed raw input record with a chosen `sequence`. -/
def wraw (sid : String) (sq : Int) : RawSegment :=
  ⟨some sid, some "zoya", some "text", some sq, none, none⟩

/-- A concrete raw input record missing the required `text` key. -/
def wrawBadText : RawSegment :=
  ⟨some "x", some "zoya", none, some 0, none, none⟩

/-- A three-segment queue (sequences `0,1,2`) with a chosen cursor. -/
def wq (pos : Int) : ConversationQueue :=
  ⟨"ov", [wseg "s0" 0, wseg "s1" 1, wseg "s2" 2], pos, false⟩

/-- A concrete call chain: load two segments, seek to position 1, then load
an empty batch, leaving the cursor beyond the end of the list. -/
def shrinkChain : ConversationQueue :=
  (load_overview_segments
    ((ConversationQueue.seek
      (load_overview_segments (ConversationQueue.init "ov")
        [wraw "a" 0, wraw "b" 1]).1 1).1) []).1

theorem buildSegment_eq (b : Bool) (ins : Option String) (r : RawSegment) :
    buildSegment b ins r =
      match missingField r with
      | some e => .error e
      | none => .ok ⟨r.segment_id.getD "", r.speaker.getD "", r.text.getD "",
          r.sequence.getD 0, r.duration_ms.getD 0, r.audio_url, b, ins⟩ := by
  rcases r with ⟨sid, sp, tx, sq, d, a⟩
  cases sid <;> cases sp <;> cases tx <;> cases sq <;> rfl

theorem buildSegment_err (b : Bool) (ins : Option String) (r : RawSegment) (e : String)
    (h : missingField r = some e) : buildSegment b ins r = .error e := by
  rw [buildSegment_eq, h]

theorem buildSegment_load_wf (r : RawSegment) (h : missingField r = none) :
    buildSegment false none r = .ok (loadedSeg r) := by
  rw [buildSegment_eq, h]; rfl

theorem buildSegment_resp_wf (now : String) (r : RawSegment) (h : missingField r = none) :
    buildSegment true (some now) r = .ok (respSeg now r) := by
  rw [buildSegment_eq, h]; rfl

theorem firstMissing_eq_none (recs : List RawSegment) :
    firstMissing recs = none ↔ ∀ r ∈ recs, missingField r = none := by
  induction recs with
  | nil => simp [firstMissing]
  | cons r rs ih =>
    cases h : missingField r with
    | some e => simp [firstMissing, h]
    | none => simp [firstMissing, h, ih]

theorem loadGo_eq (acc : List QueueSegment) (recs : List RawSegment) :
    loadGo acc recs =
      (acc ++ (recs.takeWhile fun r => (missingField r).isNone).map loadedSeg,
        firstMissing recs) := by
  induction recs generalizing acc with
  | nil => simp [loadGo, firstMissing]
  | cons r rs ih =>
    cases h : missingField r with
    | some e =>
      simp [loadGo, buildSegment_err false none r e h, firstMissing, h,
        List.takeWhile_cons]
    | none =>
      simp [loadGo, buildSegment_load_wf r h, firstMissing, h, ih,
        List.takeWhile_cons]

theorem buildResponses_eq (now : String) (recs : List RawSegment) :
    buildResponses now recs =
      match firstMissing recs with
      | some e => .error e
      | none => .ok (recs.map (respSeg now)) := by
  induction recs with
  | nil => rfl
  | cons r rs ih =>
    cases h : missingField r with
    | some e => simp [buildResponses, buildSegment_err true (some now) r e h, firstMissing, h]
    | none =>
      rw [buildResponses, buildSegment_resp_wf now r h, ih]
      cases h2 : firstMissing rs <;> simp [firstMissing, h, h2]

theorem pyInsert_of_le (l : List α) (i : Int) (x : α) (h0 : 0 ≤ i)
    (h1 : i ≤ (l.length : Int)) :
    pyInsert l i x = l.take i.toNat ++ x :: l.drop i.toNat := by
  simp only [pyInsert]
  rw [if_neg (not_lt.mpr h0), min_eq_left h1]

theorem pyInsert_of_ge (l : List α) (i : Int) (x : α) (h1 : (l.length : Int) ≤ i) :
    pyInsert l i x = l ++ [x] := by
  have h0 : (0 : Int) ≤ i := le_trans (Int.ofNat_nonneg l.length) h1
  simp only [pyInsert]
  rw [if_neg (not_lt.mpr h0), min_eq_right h1]
  simp

theorem pyInsert_length (l : List α) (i : Int) (x : α) :
    (pyInsert l i x).length = l.length + 1 := by
  simp only [pyInsert, List.length_append, List.length_cons, List.length_take,
    List.length_drop]
  have hj : (if i < 0 then max 0 ((l.length : Int) + i) else min i (l.length : Int)).toNat
      ≤ l.length := by
    split <;> omega
  omega

theorem insertAll_append (A B xs : List α) :
    insertAll (A ++ B) ((A.length : Int)) xs = A ++ xs ++ B := by
  induction xs generalizing A with
  | nil => simp [insertAll]
  | cons x xs ih =>
    rw [insertAll,
      pyInsert_of_le (A ++ B) (A.length : Int) x (Int.ofNat_nonneg _)
        (by simp only [List.length_append]; push_cast; omega)]
    have ht : (A.length : Int).toNat = A.length := Int.toNat_ofNat A.length
    rw [ht, List.take_left, List.drop_left]
    have hx : A ++ x :: B = (A ++ [x]) ++ B := by simp
    have hl : ((A.length : Int)) + 1 = (((A ++ [x]).length : Nat) : Int) := by
      simp [List.length_append]
    rw [hx, hl, ih (A ++ [x])]
    simp

theorem insertAll_of_le (l : List α) (pos : Int) (xs : List α) (h0 : 0 ≤ pos)
    (h1 : pos ≤ (l.length : Int)) :
    insertAll l pos xs = l.take pos.toNat ++ xs ++ l.drop pos.toNat := by
  have hlen : (l.take pos.toNat).length = pos.toNat := by
    rw [List.length_take]
    omega
  have hsplit : l = l.take pos.toNat ++ l.drop pos.toNat := (List.take_append_drop _ l).symm
  calc insertAll l pos xs
      = insertAll (l.take pos.toNat ++ l.drop pos.toNat)
          (((l.take pos.toNat).length : Nat) : Int) xs := by
        rw [← hsplit, hlen]
        congr 1
        omega
    _ = l.take pos.toNat ++ xs ++ l.drop pos.toNat := insertAll_append _ _ _

theorem insertAll_of_ge (l : List α) (pos : Int) (xs : List α)
    (h1 : (l.length : Int) ≤ pos) :
    insertAll l pos xs = l ++ xs := by
  induction xs generalizing l pos with
  | nil => simp [insertAll]
  | cons x xs ih =>
    rw [insertAll, pyInsert_of_ge l pos x h1, ih (l ++ [x]) (pos + 1)
      (by simp [List.length_append]; omega)]
    simp

theorem insertAll_length (l : List α) (pos : Int) (xs : List α) :
    (insertAll l pos xs).length = l.length + xs.length := by
  induction xs generalizing l pos with
  | nil => simp [insertAll]
  | cons x xs ih =>
    rw [insertAll, ih, pyInsert_length]
    simp [List.length_cons]
    omega

theorem resequenceGo_length (start i : Int) (l : List QueueSegment) :
    (resequenceGo start i l).length = l.length := by
  induction l generalizing i with
  | nil => rfl
  | cons s rest ih => simp [resequenceGo, ih]

theorem resequenceGo_getElem? (start : Int) (l : List QueueSegment) (i : Int) (j : Nat) :
    (resequenceGo start i l)[j]? =
      (l[j]?).map
        (fun s => if start ≤ i + (j : Int) then { s with sequence := i + (j : Int) } else s) := by
  induction l generalizing i j with
  | nil => simp [resequenceGo]
  | cons s rest ih =>
    cases j with
    | zero => simp [resequenceGo]
    | succ j =>
      simp only [resequenceGo, List.getElem?_cons_succ, ih (i + 1) j]
      push_cast
      have hc : i + 1 + (j : Int) = i + ((j : Int) + 1) := by ring
      rw [hc]

theorem resequence_getElem? (start : Int) (l : List QueueSegment) (j : Nat) :
    (resequence l start)[j]? =
      (l[j]?).map
        (fun s => if start ≤ (j : Int) then { s with sequence := (j : Int) } else s) := by
  have h := resequenceGo_getElem? start l 0 j
  simpa [resequence] using h

theorem resequence_length (l : List QueueSegment) (start : Int) :
    (resequence l start).length = l.length := resequenceGo_length start 0 l

theorem seqInv_splice (segs newSegs : List QueueSegment) (ip : Int)
    (h0 : 0 ≤ ip) (h1 : ip ≤ (segs.length : Int)) (hold : SeqInvL segs)
    (hnew : ∀ j : Nat, ∀ s : QueueSegment, newSegs[j]? = some s →
      s.sequence = ip + (j : Int)) :
    SeqInvL (resequence (insertAll segs ip newSegs)
      (ip + (newSegs.length : Int))) := by
  intro i s hs
  rw [resequence_getElem?, insertAll_of_le segs ip newSegs h0 h1,
    List.append_assoc] at hs
  have hki : ((ip.toNat : Nat) : Int) = ip := Int.toNat_of_nonneg h0
  have hkle : ip.toNat ≤ segs.length := by omega
  have hlen_take : (segs.take ip.toNat).length = ip.toNat := by
    rw [List.length_take]; omega
  rw [List.getElem?_append] at hs
  by_cases hlt : i < (segs.take ip.toNat).length
  · rw [if_pos hlt, List.getElem?_take, if_pos (by omega : i < ip.toNat)] at hs
    obtain ⟨s0, hs0, hfs⟩ := Option.map_eq_some'.mp hs
    have hseq := hold i s0 hs0
    rw [if_neg (by omega : ¬ ip + ((newSegs.length : Nat) : Int) ≤ (i : Int))] at hfs
    rw [← hfs]
    exact hseq
  · rw [if_neg hlt] at hs
    push_neg at hlt
    rw [List.getElem?_append] at hs
    by_cases hlt2 : i - (segs.take ip.toNat).length < newSegs.length
    · rw [if_pos hlt2] at hs
      obtain ⟨s0, hs0, hfs⟩ := Option.map_eq_some'.mp hs
      have hseq := hnew _ _ hs0
      rw [if_neg (by omega : ¬ ip + ((newSegs.length : Nat) : Int) ≤ (i : Int))] at hfs
      rw [← hfs, hseq]
      omega
    · rw [if_neg hlt2] at hs
      obtain ⟨s0, hs0, hfs⟩ := Option.map_eq_some'.mp hs
      push_neg at hlt2
      rw [if_pos (by omega : ip + ((newSegs.length : Nat) : Int) ≤ (i : Int))] at hfs
      rw [← hfs]

theorem reachC1_spec (q : ConversationQueue) (h : ReachC1 q) :
    SeqInvL q.segments ∧ q.current_position = 0 := by
  induction h with
  | init oid =>
    refine ⟨?_, rfl⟩
    intro i s hs
    simp [ConversationQueue.init] at hs
  | load q recs h hw ih =>
    obtain ⟨hinv, hpos⟩ := ih
    have hwf : ∀ r ∈ recs, missingField r = none := by
      intro r hr
      obtain ⟨j, hj⟩ := List.getElem?_of_mem hr
      exact (hw j r hj).1
    have htw : recs.takeWhile (fun r => (missingField r).isNone) = recs :=
      List.takeWhile_eq_self_iff.mpr (by intro r hr; simp [hwf r hr])
    constructor
    · show SeqInvL (load_overview_segments q recs).1.segments
      simp only [load_overview_segments, loadGo_eq, htw, List.nil_append]
      intro i s hs
      rw [List.getElem?_map] at hs
      obtain ⟨r, hr, hrs⟩ := Option.map_eq_some'.mp hs
      have h2 := (hw i r hr).2
      rw [← hrs]
      simp [loadedSeg, h2]
    · simpa [load_overview_segments] using hpos
  | insert q recs b now h hip hw ih =>
    obtain ⟨hinv, hpos⟩ := ih
    by_cases hemp : recs.isEmpty
    · have hnil : recs = [] := List.isEmpty_iff.mp hemp
      subst hnil
      simpa [insert_response] using ⟨hinv, hpos⟩
    · have hwf : ∀ r ∈ recs, missingField r = none := by
        intro r hr
        obtain ⟨j, hj⟩ := List.getElem?_of_mem hr
        exact (hw j r hj).1
      have hfm : firstMissing recs = none := (firstMissing_eq_none recs).mpr hwf
      have hbr : buildResponses now recs = .ok (recs.map (respSeg now)) := by
        rw [buildResponses_eq, hfm]
      have hstate : (insert_response q recs b now).1 =
          { q with segments := (resequence
              (insertAll q.segments (ipOf q b) (recs.map (respSeg now)))
              (ipOf q b + (((recs.map (respSeg now)).length : Nat) : Int))) } := by
        simp [insert_response, hemp, hbr]
      rw [hstate]
      refine ⟨?_, hpos⟩
      apply seqInv_splice
      · unfold ipOf
        split <;> omega
      · exact hip
      · exact hinv
      · intro j s hs
        rw [List.getElem?_map] at hs
        obtain ⟨r, hr, hrs⟩ := Option.map_eq_some'.mp hs
        have h2 := (hw j r hr).2
        rw [← hrs]
        simp [respSeg, h2]

theorem reachC5_spec (q : ConversationQueue) (h : ReachC5 q) :
    0 ≤ q.current_position ∧ q.current_position ≤ (q.segments.length : Int) := by
  induction h with
  | init oid => simp [ConversationQueue.init]
  | load q recs h hw hlen ih =>
    obtain ⟨h0, _⟩ := ih
    have htw : recs.takeWhile (fun r => (missingField r).isNone) = recs :=
      List.takeWhile_eq_self_iff.mpr (by intro r hr; simp [hw r hr])
    constructor
    · simpa [load_overview_segments] using h0
    · show (load_overview_segments q recs).1.current_position
        ≤ ((load_overview_segments q recs).1.segments.length : Int)
      simp only [load_overview_segments, loadGo_eq, htw, List.nil_append,
        List.length_map]
      exact hlen
  | insert q recs b now h ih =>
    obtain ⟨h0, h1⟩ := ih
    by_cases hemp : recs.isEmpty
    · have hnil : recs = [] := List.isEmpty_iff.mp hemp
      subst hnil
      simpa [insert_response] using ⟨h0, h1⟩
    · cases hfm : firstMissing recs with
      | some e =>
        have hbr : buildResponses now recs = .error e := by
          rw [buildResponses_eq, hfm]
        simpa [insert_response, hemp, hbr] using ⟨h0, h1⟩
      | none =>
        have hbr : buildResponses now recs = .ok (recs.map (respSeg now)) := by
          rw [buildResponses_eq, hfm]
        have hpos : (insert_response q recs b now).1.current_position
            = q.current_position := by
          simp [insert_response, hemp, hbr]
        have hlen2 : (insert_response q recs b now).1.segments.length
            = q.segments.length + recs.length := by
          simp [insert_response, hemp, hbr, resequence_length, insertAll_length]
        constructor
        · rw [hpos]; exact h0
        · rw [hpos, hlen2]; push_cast; omega
  | advance q h ih =>
    obtain ⟨h0, h1⟩ := ih
    show 0 ≤ q.advance.1.current_position
      ∧ q.advance.1.current_position ≤ (q.advance.1.segments.length : Int)
    by_cases hc : q.current_position < (q.segments.length : Int) - 1
    · simp only [ConversationQueue.advance, if_pos hc]
      constructor <;> omega
    · simpa [ConversationQueue.advance, if_neg hc] using ⟨h0, h1⟩
  | seek q p h ih =>
    obtain ⟨h0, h1⟩ := ih
    show 0 ≤ (q.seek p).1.current_position
      ∧ (q.seek p).1.current_position ≤ ((q.seek p).1.segments.length : Int)
    by_cases hc : 0 ≤ p ∧ p < (q.segments.length : Int)
    · simp only [ConversationQueue.seek, if_pos hc]
      constructor <;> omega
    · simpa [ConversationQueue.seek, if_neg hc] using ⟨h0, h1⟩
  | pause q h ih => simpa [ConversationQueue.pause] using ih
  | resume q h ih => simpa [ConversationQueue.resume] using ih

theorem regFind_eq_none_of_not_mem (reg : Registry) (oid : String)
    (h : oid ∉ reg.map Prod.fst) : regFind reg oid = none := by
  simp only [regFind, Option.map_eq_none', List.find?_eq_none, decide_eq_true_eq]
  intro x hx heq
  exact h (heq ▸ List.mem_map_of_mem Prod.fst hx)

theorem regFind_eraseP (reg : Registry) (oid : String)
    (hnd : (reg.map Prod.fst).Nodup) :
    regFind (List.eraseP (fun p => p.1 = oid) reg) oid = none := by
  induction reg with
  | nil => simp [regFind]
  | cons p rest ih =>
    simp only [List.map_cons, List.nodup_cons] at hnd
    obtain ⟨hp, hrest⟩ := hnd
    by_cases hpe : p.1 = oid
    · rw [List.eraseP_cons_of_pos (by simp [hpe])]
      exact regFind_eq_none_of_not_mem rest oid (hpe ▸ hp)
    · rw [List.eraseP_cons_of_neg (by simp [hpe])]
      show (List.find? (fun p => p.1 = oid) _).map Prod.snd = none
      rw [List.find?_cons_of_neg _ (by simp [hpe])]
      exact ih hrest

theorem regFind_append_self (reg : Registry) (oid : String) (q : ConversationQueue)
    (h : regFind reg oid = none) :
    regFind (List.append reg [(oid, q)]) oid = some q := by
  have hf : List.find? (fun p => p.1 = oid) reg = none :=
    Option.map_eq_none'.mp h
  show (List.find? (fun p => p.1 = oid) (reg ++ [(oid, q)])).map Prod.snd = some q
  rw [List.find?_append, hf]
  simp

theorem resequence_of_ge (l : List QueueSegment) (start : Int)
    (h : (l.length : Int) ≤ start) : resequence l start = l := by
  apply List.ext_getElem?
  intro n
  rw [resequence_getElem?]
  cases hn : l[n]? with
  | none => rfl
  | some s =>
    have hlt : n < l.length := by
      by_contra hge
      rw [List.getElem?_eq_none (by omega)] at hn
      cases hn
    simp only [Option.map_some']
    rw [if_neg (by omega : ¬ start ≤ (n : Int))]

theorem insert_response_ok (q : ConversationQueue) (recs : List RawSegment)
    (b : Bool) (now : String) (hne : recs.isEmpty = false)
    (hfm : firstMissing recs = none) :
    insert_response q recs b now =
      ({ q with segments := (resequence
          (insertAll q.segments (ipOf q b) (recs.map (respSeg now)))
          (ipOf q b + (((recs.map (respSeg now)).length : Nat) : Int))) },
        Except.ok (ipOf q b)) := by
  have hbr : buildResponses now recs = .ok (recs.map (respSeg now)) := by
    rw [buildResponses_eq, hfm]
  simp [insert_response, hne, hbr]

theorem ipOf_nonneg (q : ConversationQueue) (b : Bool)
    (hpos : 0 ≤ q.current_position) : 0 ≤ ipOf q b := by
  unfold ipOf
  split <;> omega

/-- C4: `insert_response` with an empty batch is a true no-op: it leaves the
whole queue state unchanged and returns the pre-call `current_position`
rather than a computed insertion index. -/
theorem c4_empty_insert_noop (q : ConversationQueue) (b : Bool) (now : String) :
    insert_response q [] b now = (q, Except.ok q.current_position) := by
  simp [insert_response]

/-- C6: `advance()` succeeds (returns true, incrementing the cursor by one)
exactly when `current_position < len(segments) - 1`; otherwise — at the last
valid index or on an empty queue — it returns false and changes nothing,
and a successful advance always lands strictly inside the list, never at
the one-past-end position. -/
theorem c6_advance_boundary (q : ConversationQueue) :
    (q.advance.2 = true ↔ q.current_position < (q.segments.length : Int) - 1)
    ∧ (q.advance.2 = true →
        q.advance.1 = { q with current_position := q.current_position + 1 }
        ∧ q.advance.1.current_position < (q.segments.length : Int))
    ∧ (q.advance.2 = false → q.advance.1 = q) := by
  unfold ConversationQueue.advance
  by_cases hc : q.current_position < (q.segments.length : Int) - 1
  · rw [if_pos hc]
    exact ⟨by simp [hc], fun _ => ⟨rfl, by simp; omega⟩, by simp⟩
  · rw [if_neg hc]
    exact ⟨by simp [hc], by simp, fun _ => rfl⟩

/-- C6 witness: on the three-segment queue, `advance()` from cursor 1
succeeds, and from cursor 2 (the last index) it fails with no mutation. -/
theorem c6_advance_boundary_witness :
    (ConversationQueue.advance (wq 1)).2 = true
    ∧ (ConversationQueue.advance (wq 2)).2 = false
    ∧ (ConversationQueue.advance (wq 2)).1 = wq 2 :=
  ⟨(c6_advance_boundary (wq 1)).1.mpr (by decide), by decide,
    (c6_advance_boundary (wq 2)).2.2 (by decide)⟩

/-- C7: `seek(position)` succeeds (returning true and setting the cursor)
exactly when `0 <= position < len(segments)`; otherwise it returns false
and leaves the state unchanged; `seek(0)` on a non-empty queue always
succeeds. -/
theorem c7_seek_boundary (q : ConversationQueue) (p : Int) :
    ((q.seek p).2 = true ↔ 0 ≤ p ∧ p < (q.segments.length : Int))
    ∧ ((q.seek p).2 = true → (q.seek p).1 = { q with current_position := p })
    ∧ ((q.seek p).2 = false → (q.seek p).1 = q)
    ∧ (q.segments ≠ [] → (q.seek 0).2 = true) := by
  refine ⟨?_, ?_, ?_, ?_⟩
  · unfold ConversationQueue.seek
    by_cases hc : 0 ≤ p ∧ p < (q.segments.length : Int)
    · rw [if_pos hc]; simp [hc]
    · rw [if_neg hc]; simp [hc]
  · unfold ConversationQueue.seek
    by_cases hc : 0 ≤ p ∧ p < (q.segments.length : Int)
    · rw [if_pos hc]; exact fun _ => rfl
    · rw [if_neg hc]; simp
  · unfold ConversationQueue.seek
    by_cases hc : 0 ≤ p ∧ p < (q.segments.length : Int)
    · rw [if_pos hc]; simp
    · rw [if_neg hc]; exact fun _ => rfl
  · intro hne
    unfold ConversationQueue.seek
    rw [if_pos ⟨le_refl 0, by
      have : q.segments.length ≠ 0 := fun h => hne (List.length_eq_zero.mp h)
      omega⟩]

/-- C7 witness: on the three-segment queue with cursor 2, `seek(-1)` and
`seek(3)` fail without mutation, and `seek(0)` succeeds. -/
theorem c7_seek_boundary_witness :
    ((wq 2).seek (-1)).1 = wq 2 ∧ ((wq 2).seek 3).1 = wq 2
    ∧ ((wq 2).seek 0).2 = true :=
  ⟨(c7_seek_boundary (wq 2) (-1)).2.2.1 (by decide),
    (c7_seek_boundary (wq 2) 3).2.2.1 (by decide),
    (c7_seek_boundary (wq 2) 0).2.2.2 (by decide)⟩

/-- C8 counterexample: on a fresh (empty) queue, `get_queue_state` reports
`remaining_segments = -1`, while the claimed clamp `max 0 (0 - 0 - 1)` is
`0`: the snapshot's remaining count is not clamped at zero. -/
theorem c8_remaining_counterexample :
    (get_queue_state (ConversationQueue.init "ov")).remaining_segments = -1
    ∧ max (0 : Int) ((0 : Int) - 0 - 1) = 0
    ∧ ((-1 : Int) ≠ (0 : Int)) := by decide

/-- C8 (amended): `get_queue_state` reports
`remaining_segments = total_segments - current_position - 1` with no
clamping, so it is negative exactly when the cursor sits at or past the
end of the list (for example `-1` on an empty queue). -/
theorem c8_remaining_unclamped (q : ConversationQueue) :
    (get_queue_state q).remaining_segments
      = ((get_queue_state q).total_segments : Int)
        - (get_queue_state q).current_position - 1
    ∧ ((get_queue_state q).remaining_segments < 0
        ↔ (q.segments.length : Int) ≤ q.current_position) := by
  constructor
  · rfl
  · show get_remaining_segments q < 0 ↔ _
    unfold get_remaining_segments
    omega

theorem forall_getElem?_of_fin {P : Nat → RawSegment → Prop} (recs : List RawSegment)
    (h : ∀ j : Fin recs.length, P (j : Nat) (recs.get j)) :
    ∀ j : Nat, ∀ r : RawSegment, recs[j]? = some r → P j r := by
  intro j r hj
  obtain ⟨hlt, hget⟩ := List.getElem?_eq_some.mp hj
  have h2 := h ⟨j, hlt⟩
  rw [List.get_eq_getElem] at h2
  simpa [hget] using h2

/-- C1 counterexample: loading a single well-formed record whose `sequence`
field is `5` leaves a queue whose segment at position 0 has `sequence = 5`,
not `0`: `load_overview_segments` copies the caller-supplied `sequence`
values verbatim and never resequences. -/
theorem c1_sequence_invariant_counterexample :
    ((load_overview_segments (ConversationQueue.init "ov") [wraw "s0" 5]).1.segments.map
      QueueSegment.sequence) = [5]
    ∧ ((5 : Int) ≠ (0 : Int)) := by decide

/-- C1 (amended): the sequence invariant (segment at position `i` has
`sequence = i`) holds for every state reachable through loads and inserts,
provided each record's `sequence` field equals the position the record will
occupy (its batch index for a load; the insertion index plus its batch
offset for an insert) and each after-current insert is into a queue long
enough to contain the insertion index; without those provisos the code
keeps caller-supplied `sequence` values. -/
theorem c1_sequence_invariant_amended (q : ConversationQueue) (h : ReachC1 q) :
    SeqInvL q.segments :=
  (reachC1_spec q h).1

/-- C1 witness: the invariant, instantiated on the queue obtained by
loading two records (sequences 0,1) and then inserting one response after
the cursor with sequence 1. -/
theorem c1_sequence_invariant_witness :
    SeqInvL (insert_response (load_overview_segments (ConversationQueue.init "ov")
      [wraw "a" 0, wraw "b" 1]).1 [wraw "r" 1] true "T").1.segments := by
  apply c1_sequence_invariant_amended
  apply ReachC1.insert
  · apply ReachC1.load
    · exact ReachC1.init "ov"
    · exact forall_getElem?_of_fin _ (by decide)
  · decide
  · exact forall_getElem?_of_fin _ (by decide)

/-- C5 counterexample: load two segments, seek to position 1, then load an
empty batch: the cursor is 1 while the list is empty, violating
`current_position <= len(segments)` in a state reachable with well-formed
inputs. -/
theorem c5_cursor_invariant_counterexample :
    shrinkChain.current_position = 1
    ∧ shrinkChain.segments.length = 0
    ∧ ¬(shrinkChain.current_position ≤ (shrinkChain.segments.length : Int)) := by
  decide

/-- C5 (amended): `0 <= current_position <= len(segments)` holds in every
reachable state provided each `load_overview_segments` call supplies
well-formed records and at least `current_position` many of them; a load
that shrinks the list below the cursor (as in the counterexample) breaks
the upper bound, since loading never moves the cursor. -/
theorem c5_cursor_invariant_amended (q : ConversationQueue) (h : ReachC5 q) :
    0 ≤ q.current_position ∧ q.current_position ≤ (q.segments.length : Int) :=
  reachC5_spec q h

/-- C5 witness: the bounds, instantiated on the queue obtained by loading
two records and advancing once. -/
theorem c5_cursor_invariant_witness :
    0 ≤ (ConversationQueue.advance (load_overview_segments (ConversationQueue.init "ov")
        [wraw "a" 0, wraw "b" 1]).1).1.current_position
    ∧ (ConversationQueue.advance (load_overview_segments (ConversationQueue.init "ov")
        [wraw "a" 0, wraw "b" 1]).1).1.current_position
      ≤ ((ConversationQueue.advance (load_overview_segments (ConversationQueue.init "ov")
        [wraw "a" 0, wraw "b" 1]).1).1.segments.length : Int) :=
  c5_cursor_invariant_amended _
    (ReachC5.advance _
      (ReachC5.load _ _ (ReachC5.init "ov") (by decide) (by decide)))

/-- C2 counterexample: on the three-segment queue with cursor 0, inserting
two records whose `sequence` fields are 99 and 42 after the current
position yields the order `[s0, r0, r1, s1, s2]`, but the inserted
segments keep their caller-supplied sequences (99, 42) instead of 1 and 2:
resequencing starts only after the inserted block. -/
theorem c2_insertion_placement_counterexample :
    ((insert_response (wq 0) [wraw "r0" 99, wraw "r1" 42] true "T").1.segments.map
        QueueSegment.segment_id = ["s0", "r0", "r1", "s1", "s2"])
    ∧ ((insert_response (wq 0) [wraw "r0" 99, wraw "r1" 42] true "T").1.segments.map
        QueueSegment.sequence = [0, 99, 42, 3, 4])
    ∧ ((99 : Int) ≠ (1 : Int)) := by decide

/-- C2 (amended): on a queue `[s0,s1,s2]` with cursor 0, inserting
well-formed `[r0,r1]` after the current position returns index 1 and
produces `[s0, r0, r1, s1, s2]` with the cursor still 0, where the shifted
segments are resequenced to 3 and 4 but the inserted segments keep their
caller-supplied `sequence` values; with `after_current=false` the computed
index is `len(segments)` and the new segments are appended at the end. -/
theorem c2_insertion_placement_amended (oid now : String) (paused : Bool)
    (s0 s1 s2 : QueueSegment) (r0 r1 : RawSegment)
    (h0 : missingField r0 = none) (h1 : missingField r1 = none) :
    insert_response ⟨oid, [s0, s1, s2], 0, paused⟩ [r0, r1] true now
      = (⟨oid, [s0, respSeg now r0, respSeg now r1,
          { s1 with sequence := 3 }, { s2 with sequence := 4 }], 0, paused⟩,
        Except.ok 1)
    ∧ (respSeg now r0).sequence = r0.sequence.getD 0
    ∧ (respSeg now r1).sequence = r1.sequence.getD 0
    ∧ ∀ (q : ConversationQueue) (recs : List RawSegment),
        recs ≠ [] → firstMissing recs = none →
        insert_response q recs false now
          = ({ q with segments := q.segments ++ recs.map (respSeg now) },
              Except.ok ((q.segments.length : Nat) : Int)) := by
  refine ⟨?_, rfl, rfl, ?_⟩
  · have hfm : firstMissing [r0, r1] = none := by simp [firstMissing, h0, h1]
    rw [insert_response_ok ⟨oid, [s0, s1, s2], 0, paused⟩ [r0, r1] true now rfl hfm]
    have hip : ipOf ⟨oid, [s0, s1, s2], 0, paused⟩ true = 1 := by
      simp [ipOf]
    rw [hip]
    have hins : insertAll [s0, s1, s2] 1 [respSeg now r0, respSeg now r1]
        = [s0, respSeg now r0, respSeg now r1, s1, s2] := by
      rw [insertAll_of_le _ _ _ (by omega) (by simp)]
      rfl
    simp only [List.map_cons, List.map_nil, hins]
    have hres : resequence [s0, respSeg now r0, respSeg now r1, s1, s2] 3
        = [s0, respSeg now r0, respSeg now r1,
            { s1 with sequence := 3 }, { s2 with sequence := 4 }] := by
      simp only [resequence, resequenceGo]
      norm_num
    simp only [List.length_cons, List.length_nil]
    norm_num [hres]
  · intro q recs hne hfm
    have hemp : recs.isEmpty = false := by
      cases recs
      · exact absurd rfl hne
      · rfl
    rw [insert_response_ok _ _ _ _ hemp hfm]
    have hip : ipOf q false = (q.segments.length : Int) := by simp [ipOf]
    rw [hip, insertAll_of_ge _ _ _ (le_refl _), resequence_of_ge]
    simp

/-- C2 witness: the amended statement instantiated on the concrete
three-segment queue and two concrete records with sequences 99 and 42. -/
theorem c2_insertion_placement_witness :
    missingField (wraw "r0" 99) = none
    ∧ (insert_response ⟨"ov", [wseg "s0" 0, wseg "s1" 1, wseg "s2" 2], 0, false⟩
        [wraw "r0" 99, wraw "r1" 42] true "T").2 = Except.ok 1 := by
  refine ⟨by decide, ?_⟩
  rw [(c2_insertion_placement_amended "ov" "T" false (wseg "s0" 0) (wseg "s1" 1)
    (wseg "s2" 2) (wraw "r0" 99) (wraw "r1" 42) (by decide) (by decide)).1]

/-- C3 counterexample: loading `[good, record-missing-text]` into the
three-segment queue raises the named error, but leaves the queue holding
the converted prefix `[good]` — not the three segments it held before the
call: `load_overview_segments` is not atomic on malformed input. -/
theorem c3_malformed_atomicity_counterexample :
    (load_overview_segments (wq 0) [wraw "g" 0, wrawBadText]).2 = some "text"
    ∧ (load_overview_segments (wq 0) [wraw "g" 0, wrawBadText]).1.segments
        = [loadedSeg (wraw "g" 0)]
    ∧ (load_overview_segments (wq 0) [wraw "g" 0, wrawBadText]).1.segments
        ≠ (wq 0).segments := by decide

/-- C3 (amended): on a batch containing a record missing a required field,
`insert_response` fails with an error naming the first missing field and
leaves the queue state exactly unchanged (it converts the whole batch
before mutating), while `load_overview_segments` fails with the same named
error and leaves the cursor and paused flag unchanged but replaces the
segment list with the converted prefix of the input before the malformed
record — so the load is not atomic. -/
theorem c3_malformed_input_amended (q : ConversationQueue) (recs : List RawSegment)
    (b : Bool) (now : String) (e : String) (he : firstMissing recs = some e) :
    insert_response q recs b now = (q, Except.error e)
    ∧ (load_overview_segments q recs).2 = some e
    ∧ (load_overview_segments q recs).1.current_position = q.current_position
    ∧ (load_overview_segments q recs).1.playback_paused = q.playback_paused
    ∧ (load_overview_segments q recs).1.segments
        = (recs.takeWhile fun r => (missingField r).isNone).map loadedSeg := by
  have hne : recs ≠ [] := by
    intro h
    subst h
    simp [firstMissing] at he
  have hemp : recs.isEmpty = false := by
    cases recs
    · exact absurd rfl hne
    · rfl
  have hbr : buildResponses now recs = .error e := by rw [buildResponses_eq, he]
  refine ⟨?_, ?_, ?_, ?_, ?_⟩
  · simp [insert_response, hemp, hbr]
  · simp [load_overview_segments, loadGo_eq, he]
  · rfl
  · rfl
  · simp [load_overview_segments, loadGo_eq]

/-- C3 witness: the amended statement instantiated on the three-segment
queue and the concrete batch `[good, record-missing-text]`. -/
theorem c3_malformed_input_witness :
    firstMissing [wraw "g" 0, wrawBadText] = some "text"
    ∧ insert_response (wq 0) [wraw "g" 0, wrawBadText] true "T"
        = (wq 0, Except.error "text") :=
  ⟨by decide,
    (c3_malformed_input_amended (wq 0) [wraw "g" 0, wrawBadText] true "T" "text"
      (by decide)).1⟩

/-- C9: the registry returns the stored queue untouched for a known id,
otherwise creates, stores and returns a fresh empty queue (no segments,
cursor 0, not paused) that later lookups find; `clear_queue` removes the
id's entry when present (keys are pairwise distinct in reachable
registries) and leaves the registry unchanged when absent. -/
theorem c9_registry_contract (reg : Registry) (oid : String)
    (hnd : (reg.map Prod.fst).Nodup) :
    (∀ q0 : ConversationQueue, regFind reg oid = some q0 →
        get_conversation_queue reg oid = (reg, q0))
    ∧ (regFind reg oid = none →
        get_conversation_queue reg oid
          = (reg ++ [(oid, ConversationQueue.init oid)], ConversationQueue.init oid)
        ∧ regFind (get_conversation_queue reg oid).1 oid
            = some (ConversationQueue.init oid))
    ∧ (ConversationQueue.init oid).segments = []
    ∧ (ConversationQueue.init oid).current_position = 0
    ∧ (ConversationQueue.init oid).playback_paused = false
    ∧ (regFind reg oid = none → clear_queue reg oid = reg)
    ∧ regFind (clear_queue reg oid) oid = none := by
  refine ⟨?_, ?_, rfl, rfl, rfl, ?_, ?_⟩
  · intro q0 hq0
    simp [get_conversation_queue, hq0]
  · intro hnone
    refine ⟨by simp [get_conversation_queue, hnone], ?_⟩
    have h1 : (get_conversation_queue reg oid).1
        = reg ++ [(oid, ConversationQueue.init oid)] := by
      simp [get_conversation_queue, hnone]
    rw [h1]
    exact regFind_append_self reg oid _ hnone
  · intro hnone
    simp [clear_queue, hnone]
  · cases hf : regFind reg oid with
    | none => simp [clear_queue, hf]
    | some q =>
      have h1 : clear_queue reg oid = List.eraseP (fun p => p.1 = oid) reg := by
        simp [clear_queue, hf]
      rw [h1]
      exact regFind_eraseP reg oid hnd

/-- C9 witness: a one-entry registry returns its stored queue unchanged,
and clearing that id leaves no mapping behind. -/
theorem c9_registry_contract_witness :
    get_conversation_queue [("a", ConversationQueue.init "a")] "a"
      = ([("a", ConversationQueue.init "a")], ConversationQueue.init "a")
    ∧ regFind (clear_queue [("a", ConversationQueue.init "a")] "a") "a" = none := by
  have h := c9_registry_contract [("a", ConversationQueue.init "a")] "a" (by decide)
  exact ⟨h.1 (ConversationQueue.init "a") (by decide), h.2.2.2.2.2.2⟩

/-- C10: a non-empty well-formed insert changes neither the cursor nor the
paused flag; every original segment strictly below the computed insertion
index keeps all of its fields (including `sequence`), and the segments
previously at or after the insertion index reappear, in order, shifted
right by the batch size, with only their `sequence` fields rewritten. -/
theorem c10_insert_frame (q : ConversationQueue) (recs : List RawSegment) (b : Bool)
    (now : String) (hne : recs ≠ []) (hwf : ∀ r ∈ recs, missingField r = none)
    (hpos : 0 ≤ q.current_position) :
    (insert_response q recs b now).1.current_position = q.current_position
    ∧ (insert_response q recs b now).1.playback_paused = q.playback_paused
    ∧ (∀ i : Nat, i < q.segments.length → (i : Int) < ipOf q b →
        (insert_response q recs b now).1.segments[i]? = q.segments[i]?)
    ∧ ((insert_response q recs b now).1.segments.drop
          ((ipOf q b).toNat + recs.length)).map stripSeq
        = (q.segments.drop (ipOf q b).toNat).map stripSeq := by
  have hemp : recs.isEmpty = false := by
    cases recs
    · exact absurd rfl hne
    · rfl
  have hfm : firstMissing recs = none := (firstMissing_eq_none recs).mpr hwf
  have hok := insert_response_ok q recs b now hemp hfm
  have hip0 : 0 ≤ ipOf q b := ipOf_nonneg q b hpos
  have hipc : (((ipOf q b).toNat : Nat) : Int) = ipOf q b := Int.toNat_of_nonneg hip0
  rw [hok]
  refine ⟨rfl, rfl, ?_, ?_⟩
  · intro i hi hiI
    show (resequence (insertAll q.segments (ipOf q b) (recs.map (respSeg now)))
        (ipOf q b + (((recs.map (respSeg now)).length : Nat) : Int)))[i]?
      = q.segments[i]?
    rw [resequence_getElem?]
    have hunder : (insertAll q.segments (ipOf q b) (recs.map (respSeg now)))[i]?
        = q.segments[i]? := by
      by_cases hip : ipOf q b ≤ (q.segments.length : Int)
      · rw [insertAll_of_le _ _ _ hip0 hip, List.append_assoc, List.getElem?_append,
          if_pos (by rw [List.length_take]; omega :
            i < (q.segments.take (ipOf q b).toNat).length),
          List.getElem?_take, if_pos (by omega : i < (ipOf q b).toNat)]
      · push_neg at hip
        rw [insertAll_of_ge _ _ _ (by omega), List.getElem?_append, if_pos hi]
    rw [hunder, List.getElem?_eq_getElem hi]
    simp only [Option.map_some']
    rw [if_neg (by simp only [List.length_map]; omega :
      ¬ ipOf q b + (((recs.map (respSeg now)).length : Nat) : Int) ≤ (i : Int))]
  · apply List.ext_getElem?
    intro n
    rw [List.getElem?_map, List.getElem?_map, List.getElem?_drop, List.getElem?_drop,
      resequence_getElem?]
    by_cases hip : ipOf q b ≤ (q.segments.length : Int)
    · rw [insertAll_of_le _ _ _ hip0 hip, List.append_assoc]
      have hlt : (q.segments.take (ipOf q b).toNat).length = (ipOf q b).toNat := by
        rw [List.length_take]; omega
      rw [List.getElem?_append_right
        (by omega : (q.segments.take (ipOf q b).toNat).length
          ≤ (ipOf q b).toNat + recs.length + n)]
      have hidx : (ipOf q b).toNat + recs.length + n
          - (q.segments.take (ipOf q b).toNat).length = recs.length + n := by omega
      rw [hidx]
      rw [List.getElem?_append_right
        (by simp only [List.length_map]; omega :
          (recs.map (respSeg now)).length ≤ recs.length + n)]
      have hidx2 : recs.length + n - (recs.map (respSeg now)).length = n := by
        simp only [List.length_map]; omega
      rw [hidx2, List.getElem?_drop]
      cases hs : q.segments[(ipOf q b).toNat + n]? with
      | none => rfl
      | some s =>
        simp only [Option.map_some']
        by_cases hcond : ipOf q b + (((recs.map (respSeg now)).length : Nat) : Int)
            ≤ (((ipOf q b).toNat + recs.length + n : Nat) : Int)
        · rw [if_pos hcond]
          rfl
        · rw [if_neg hcond]
    · push_neg at hip
      rw [insertAll_of_ge _ _ _ (by omega)]
      rw [List.getElem?_eq_none
        (by simp only [List.length_append, List.length_map]; omega :
          (q.segments ++ recs.map (respSeg now)).length
            ≤ (ipOf q b).toNat + recs.length + n)]
      rw [List.getElem?_eq_none (by omega : q.segments.length ≤ (ipOf q b).toNat + n)]
      rfl

/-- C10 witness: the frame conditions instantiated on the three-segment
queue with cursor 0 and one concrete inserted record. -/
theorem c10_insert_frame_witness :
    (insert_response (wq 0) [wraw "r0" 99] true "T").1.current_position
        = (wq 0).current_position
    ∧ ((insert_response (wq 0) [wraw "r0" 99] true "T").1.segments.drop
          ((ipOf (wq 0) true).toNat + 1)).map stripSeq
        = ((wq 0).segments.drop (ipOf (wq 0) true).toNat).map stripSeq := by
  have h := c10_insert_frame (wq 0) [wraw "r0" 99] true "T" (by decide) (by decide)
    (by decide)
  exact ⟨h.1, h.2.2.2⟩
